import Mathlib

/-!
Shallow embedding of `rlberry/agents/dynprog/utils.py`: the tabular
dynamic-programming solver of the rlberry toolkit.  The three routines
`backward_induction`, `value_iteration` and `bellman_operator` operate on
dense arrays: a reward matrix `R : (S, A)`, a transition tensor
`P : (S, A, S)`, and Q/V value arrays.  Arrays are embedded as functions on
`Fin`-indexed types with rational entries; `np.inf` (the default `vmax` and
the initial previous-iterate buffer of `value_iteration`) is modelled by
`Option ℚ` with `none` standing for `+∞`.  The unbounded `while` loop of
`value_iteration` is modelled with explicit fuel, returning `none` on fuel
exhaustion; termination of the real loop corresponds to the existence of
sufficient fuel.
-/

namespace DynProg

instance finNonempty {n : ℕ} [NeZero n] : Nonempty (Fin n) :=
  ⟨⟨0, Nat.pos_of_ne_zero (NeZero.ne n)⟩⟩

variable {S A : ℕ}

/-- `Q[ss, :].max()` — the per-row maximum over actions, the explicit loop
`for ss in range(S): V[ss] = Q[ss, :].max()` of the source. -/
def rowMax [NeZero A] (Q : Fin S → Fin A → ℚ) (s : Fin S) : ℚ :=
  Finset.univ.sup' Finset.univ_nonempty (Q s)

/-- `P[ss, aa, :].dot(V)` — the transition-weighted dot product. -/
def dotV (p : Fin S → ℚ) (v : Fin S → ℚ) : ℚ :=
  ∑ ns, p ns * v ns

/-- `bellman_operator(Q, R, P, gamma)` from the source: first the per-row
maximum `V`, then `TQ[ss, aa] = R[ss, aa] + gamma * P[ss, aa, :].dot(V)`. -/
def bellman_operator [NeZero A] (Q : Fin S → Fin A → ℚ) (R : Fin S → Fin A → ℚ)
    (P : Fin S → Fin A → Fin S → ℚ) (gamma : ℚ) : Fin S → Fin A → ℚ :=
  let V : Fin S → ℚ := fun ss => rowMax Q ss
  fun ss aa => R ss aa + gamma * dotV (P ss aa) V

/-- The clamp `if V[hh, ss] > vmax: V[hh, ss] = vmax` of `backward_induction`;
`vmax = none` models the default `np.inf`, for which the clamp never fires. -/
def vclip (vmax : Option ℚ) (x : ℚ) : ℚ :=
  match vmax with
  | none => x
  | some m => if x > m then m else x

/-- The Q-layers of `backward_induction`, indexed by the number `r` of time
steps remaining after the current one (`r = horizon - 1 - hh`): at the
terminal step (`r = 0`, i.e. `hh = horizon - 1`) the guard `hh < horizon - 1`
is false and `Q[hh, ss, aa] = R[ss, aa]`; otherwise
`Q[hh, ss, aa] = R[ss, aa] + gamma * P[ss, aa, :].dot(V[hh + 1, :])` where
`V[hh + 1]` is the already-clamped row maximum of the next layer. -/
def biQ [NeZero A] (R : Fin S → Fin A → ℚ) (P : Fin S → Fin A → Fin S → ℚ)
    (gamma : ℚ) (vmax : Option ℚ) : ℕ → Fin S → Fin A → ℚ
  | 0 => fun ss aa => R ss aa
  | r + 1 => fun ss aa =>
      R ss aa + gamma * dotV (P ss aa)
        (fun ns => vclip vmax (rowMax (biQ R P gamma vmax r) ns))

/-- The V-layers of `backward_induction`: `V[hh, ss]` is the row maximum of
`Q[hh, ss, :]`, clamped at `vmax`, again indexed by remaining steps `r`. -/
def biV [NeZero A] (R : Fin S → Fin A → ℚ) (P : Fin S → Fin A → Fin S → ℚ)
    (gamma : ℚ) (vmax : Option ℚ) (r : ℕ) (ss : Fin S) : ℚ :=
  vclip vmax (rowMax (biQ R P gamma vmax r) ss)

/-- `backward_induction(R, P, horizon, gamma, vmax)` from the source: the loop
`for hh in range(horizon - 1, -1, -1)` fills layer `hh` from layer `hh + 1`,
so the returned arrays are `Q[hh] = biQ (horizon - 1 - hh)` and
`V[hh] = biV (horizon - 1 - hh)`, of shapes `(horizon, S, A)` and
`(horizon, S)`. -/
def backward_induction [NeZero A] (R : Fin S → Fin A → ℚ)
    (P : Fin S → Fin A → Fin S → ℚ) (horizon : ℕ) (gamma : ℚ)
    (vmax : Option ℚ) :
    (Fin horizon → Fin S → Fin A → ℚ) × (Fin horizon → Fin S → ℚ) :=
  (fun hh ss aa => biQ R P gamma vmax (horizon - 1 - hh.val) ss aa,
   fun hh ss => biV R P gamma vmax (horizon - 1 - hh.val) ss)

/-- `np.abs(Q - Q_aux).max()` — the element-wise maximum absolute difference
of two `(S, A)` arrays. -/
def supDist [NeZero S] [NeZero A] (X Y : Fin S → Fin A → ℚ) : ℚ :=
  Finset.univ.sup' Finset.univ_nonempty
    (fun p : Fin S × Fin A => |X p.1 p.2 - Y p.1 p.2|)

/-- The `while np.abs(Q - Q_aux).max() > epsilon` loop of `value_iteration`,
with explicit fuel.  `Qaux = none` models the initial buffer
`np.full((S, A), np.inf)`, against which the difference is `+∞ > epsilon`,
so the loop body runs.  The loop body is `Q_aux = Q; Q = bellman_operator(Q,
R, P, gamma)`.  Fuel exhaustion inside the loop yields `none`. -/
def viLoop [NeZero S] [NeZero A] (R : Fin S → Fin A → ℚ)
    (P : Fin S → Fin A → Fin S → ℚ) (gamma : ℚ) (eps : ℚ) :
    ℕ → (Fin S → Fin A → ℚ) → Option (Fin S → Fin A → ℚ) →
      Option (Fin S → Fin A → ℚ)
  | 0, _, none => none
  | fuel + 1, Q, none => viLoop R P gamma eps fuel (bellman_operator Q R P gamma) (some Q)
  | 0, Q, some Qa => if eps < supDist Q Qa then none else some Q
  | fuel + 1, Q, some Qa =>
      if eps < supDist Q Qa then
        viLoop R P gamma eps fuel (bellman_operator Q R P gamma) (some Q)
      else some Q

/-- `value_iteration(R, P, gamma, epsilon)` from the source: start from the
all-zeros `Q`, iterate the loop, then `V[ss] = Q[ss, :].max()`. -/
def value_iteration [NeZero S] [NeZero A] (R : Fin S → Fin A → ℚ)
    (P : Fin S → Fin A → Fin S → ℚ) (gamma : ℚ) (eps : ℚ) (fuel : ℕ) :
    Option ((Fin S → Fin A → ℚ) × (Fin S → ℚ)) :=
  (viLoop R P gamma eps fuel (fun _ _ => 0) none).map
    (fun Q => (Q, fun ss => rowMax Q ss))

/-- The sequence of value-iteration iterates: `viSeq 0` is the all-zeros
initialization, and `viSeq (n + 1)` applies `bellman_operator` once. -/
def viSeq [NeZero A] (R : Fin S → Fin A → ℚ) (P : Fin S → Fin A → Fin S → ℚ)
    (gamma : ℚ) : ℕ → Fin S → Fin A → ℚ
  | 0 => fun _ _ => 0
  | n + 1 => bellman_operator (viSeq R P gamma n) R P gamma

/-! ### Helper lemmas -/

theorem vclip_some_le (m x : ℚ) : vclip (some m) x ≤ m := by
  simp only [vclip]
  split
  · exact le_refl m
  · exact le_of_not_lt (by assumption)

theorem vclip_none (x : ℚ) : vclip none x = x := rfl

/-! ### C2: the Bellman operator formula -/

/-- C2: for every `Q`, `R` of shape `(S, A)`, `P` of shape `(S, A, S)` and
`gamma`, `bellman_operator` returns `TQ` with
`TQ[s, a] = R[s, a] + gamma * Σ_{s'} P[s, a, s'] * V[s']` where
`V[s] = max_a Q[s, a]`.  (The embedding is purely functional, so the inputs
are unmodified by construction.) -/
theorem bellman_operator_formula (S A : ℕ) [NeZero A]
    (Q R : Fin S → Fin A → ℚ) (P : Fin S → Fin A → Fin S → ℚ) (gamma : ℚ)
    (ss : Fin S) (aa : Fin A) :
    bellman_operator Q R P gamma ss aa
      = R ss aa + gamma * ∑ ns, P ss aa ns *
          Finset.univ.sup' Finset.univ_nonempty (Q ns) := rfl

/-- Witness for C2 at a concrete input. -/
theorem bellman_operator_formula_witness :
    bellman_operator (S := 1) (A := 1) (fun _ _ => (0 : ℚ)) (fun _ _ => 1)
        (fun _ _ _ => 1) (1 / 2) 0 0
      = 1 + 1 / 2 * ∑ _ns : Fin 1, 1 *
          Finset.univ.sup' Finset.univ_nonempty (fun _aa : Fin 1 => (0 : ℚ)) :=
  bellman_operator_formula 1 1 (fun _ _ => 0) (fun _ _ => 1) (fun _ _ _ => 1)
    (1 / 2) 0 0

/-! ### C10: horizon 0 returns empty arrays -/

/-- C10: with `horizon = 0` the backward loop executes zero times and
`backward_induction` returns the empty arrays of shapes `(0, S, A)` and
`(0, S)` (the unique functions out of `Fin 0`); no error is raised. -/
theorem backward_induction_horizon_zero (S A : ℕ) [NeZero A]
    (R : Fin S → Fin A → ℚ) (P : Fin S → Fin A → Fin S → ℚ) (gamma : ℚ)
    (vmax : Option ℚ) :
    (backward_induction R P 0 gamma vmax).1 = (fun hh => hh.elim0)
      ∧ (backward_induction R P 0 gamma vmax).2 = fun hh => hh.elim0 :=
  ⟨funext fun hh => hh.elim0, funext fun hh => hh.elim0⟩

/-- Witness for C10 at a concrete input. -/
theorem backward_induction_horizon_zero_witness :
    (backward_induction (S := 1) (A := 1) (fun _ _ => (5 : ℚ))
        (fun _ _ _ => 1) 0 1 none).1 = (fun hh => hh.elim0)
      ∧ (backward_induction (S := 1) (A := 1) (fun _ _ => (5 : ℚ))
          (fun _ _ _ => 1) 0 1 none).2 = fun hh => hh.elim0 :=
  backward_induction_horizon_zero 1 1 (fun _ _ => 5) (fun _ _ _ => 1) 1 none

theorem biQ_succ_eq (S A : ℕ) [NeZero A] (R : Fin S → Fin A → ℚ)
    (P : Fin S → Fin A → Fin S → ℚ) (gamma : ℚ) (vmax : Option ℚ) (r : ℕ)
    (ss : Fin S) (aa : Fin A) :
    biQ R P gamma vmax (r + 1) ss aa
      = R ss aa + gamma * ∑ ns, P ss aa ns * biV R P gamma vmax r ns := by
  simp [biQ, biV, dotV]

/-! ### C1: the backward recursion of `backward_induction` -/

/-- C1: for every `R`, `P`, `H ≥ 1`, `gamma` and `vmax`, the returned `Q`
satisfies `Q[h, s, a] = R[s, a] + gamma * Σ_{s'} P[s, a, s'] * V[h+1, s']`
for `h < H - 1` (where `V[h+1]` is the returned V array), and
`Q[H-1, s, a] = R[s, a]` at the terminal step with no continuation term. -/
theorem backward_induction_recursion (S A H : ℕ) [NeZero A] (hH : 1 ≤ H)
    (R : Fin S → Fin A → ℚ) (P : Fin S → Fin A → Fin S → ℚ) (gamma : ℚ)
    (vmax : Option ℚ) :
    (∀ (hh : Fin H) (hlt : hh.val < H - 1) (ss : Fin S) (aa : Fin A),
        (backward_induction R P H gamma vmax).1 hh ss aa
          = R ss aa + gamma * ∑ ns, P ss aa ns *
              (backward_induction R P H gamma vmax).2 ⟨hh.val + 1, by omega⟩ ns)
    ∧ ∀ (ss : Fin S) (aa : Fin A),
        (backward_induction R P H gamma vmax).1 ⟨H - 1, by omega⟩ ss aa
          = R ss aa := by
  constructor
  · intro hh hlt ss aa
    show biQ R P gamma vmax (H - 1 - hh.val) ss aa = _
    have hidx : H - 1 - hh.val = (H - 1 - (hh.val + 1)) + 1 := by omega
    rw [hidx, biQ_succ_eq]
    rfl
  · intro ss aa
    show biQ R P gamma vmax (H - 1 - (H - 1)) ss aa = R ss aa
    rw [Nat.sub_self]
    rfl

/-- Witness for C1 at a concrete input. -/
theorem backward_induction_recursion_witness :
    1 ≤ 2
    ∧ ((backward_induction (S := 1) (A := 1) (fun _ _ => (1 : ℚ))
            (fun _ _ _ => 1) 2 (1 / 2) none).1 ⟨0, by omega⟩ 0 0
          = 1 + 1 / 2 * ∑ ns, 1 *
              (backward_induction (S := 1) (A := 1) (fun _ _ => (1 : ℚ))
                  (fun _ _ _ => 1) 2 (1 / 2) none).2 ⟨1, by omega⟩ ns)
    ∧ (backward_induction (S := 1) (A := 1) (fun _ _ => (1 : ℚ))
          (fun _ _ _ => 1) 2 (1 / 2) none).1 ⟨1, by omega⟩ 0 0 = 1 :=
  ⟨by omega,
   (backward_induction_recursion 1 1 2 (by omega) (fun _ _ => 1)
       (fun _ _ _ => 1) (1 / 2) none).1 ⟨0, by omega⟩ (by decide) 0 0,
   (backward_induction_recursion 1 1 2 (by omega) (fun _ _ => 1)
       (fun _ _ _ => 1) (1 / 2) none).2 0 0⟩

/-! ### C4: the vmax clamp applies to V, never to Q -/

/-- C4: when `vmax` is finite, every returned `V[h, s]` is at most `vmax` and
equals the row maximum of `Q[h, s, :]` clamped at `vmax`; the clamp is never
applied to `Q` itself, which can exceed `vmax` (witnessed by the concrete
input `S = A = 1`, `R = 2`, `H = 1`, `vmax = 1`, where `Q[0,0,0] = 2 > 1`). -/
theorem backward_induction_vmax_clamp (S A H : ℕ) [NeZero A]
    (R : Fin S → Fin A → ℚ) (P : Fin S → Fin A → Fin S → ℚ) (gamma m : ℚ) :
    (∀ (hh : Fin H) (ss : Fin S),
        (backward_induction R P H gamma (some m)).2 hh ss ≤ m)
    ∧ (∀ (hh : Fin H) (ss : Fin S),
        (backward_induction R P H gamma (some m)).2 hh ss
          = vclip (some m) (Finset.univ.sup' Finset.univ_nonempty
              ((backward_induction R P H gamma (some m)).1 hh ss)))
    ∧ (1 : ℚ) < (backward_induction (S := 1) (A := 1) (fun _ _ => (2 : ℚ))
        (fun _ _ _ => 1) 1 1 (some 1)).1 0 0 0 := by
  refine ⟨fun hh ss => vclip_some_le m _, fun hh ss => rfl, ?_⟩
  norm_num [backward_induction, biQ]

/-- Witness for C4 at a concrete input. -/
theorem backward_induction_vmax_clamp_witness :
    ((backward_induction (S := 1) (A := 1) (fun _ _ => (2 : ℚ))
        (fun _ _ _ => 1) 1 1 (some 1)).2 0 0 ≤ 1)
    ∧ ((backward_induction (S := 1) (A := 1) (fun _ _ => (2 : ℚ))
          (fun _ _ _ => 1) 1 1 (some 1)).2 0 0
        = vclip (some 1) (Finset.univ.sup' Finset.univ_nonempty
            ((backward_induction (S := 1) (A := 1) (fun _ _ => (2 : ℚ))
                (fun _ _ _ => 1) 1 1 (some 1)).1 0 0)))
    ∧ (1 : ℚ) < (backward_induction (S := 1) (A := 1) (fun _ _ => (2 : ℚ))
        (fun _ _ _ => 1) 1 1 (some 1)).1 0 0 0 :=
  ⟨(backward_induction_vmax_clamp 1 1 1 (fun _ _ => 2) (fun _ _ _ => 1) 1 1).1 0 0,
   (backward_induction_vmax_clamp 1 1 1 (fun _ _ => 2) (fun _ _ _ => 1) 1 1).2.1 0 0,
   (backward_induction_vmax_clamp 1 1 1 (fun _ _ => 2) (fun _ _ _ => 1) 1 1).2.2⟩

/-! ### C5: backward induction as iterated Bellman operator -/

theorem biQ_none_iterate (S A : ℕ) [NeZero A] (R : Fin S → Fin A → ℚ)
    (P : Fin S → Fin A → Fin S → ℚ) (gamma : ℚ) (r : ℕ) :
    biQ R P gamma none r
      = (fun Q => bellman_operator Q R P gamma)^[r + 1] (fun _ _ => 0) := by
  induction r with
  | zero =>
      funext ss aa
      simp [biQ, bellman_operator, rowMax, dotV, Finset.sup'_const]
  | succ r ih =>
      funext ss aa
      rw [Function.iterate_succ_apply']
      simp [biQ, bellman_operator, vclip, rowMax, dotV, ih]

/-- C5: with `vmax = +∞`, layer `h` of the Q array returned by
`backward_induction` equals the `(H - h)`-fold application of
`bellman_operator` (same `R`, `P`, `gamma`) to the all-zeros Q-function. -/
theorem backward_induction_matches_iterated_bellman (S A H : ℕ) [NeZero A]
    (R : Fin S → Fin A → ℚ) (P : Fin S → Fin A → Fin S → ℚ) (gamma : ℚ)
    (hh : Fin H) :
    (backward_induction R P H gamma none).1 hh
      = (fun Q => bellman_operator Q R P gamma)^[H - hh.val]
          (fun _ _ => 0) := by
  show biQ R P gamma none (H - 1 - hh.val) = _
  rw [biQ_none_iterate]
  have hlt := hh.isLt
  congr 1
  omega

/-- Witness for C5 at a concrete input. -/
theorem backward_induction_matches_iterated_bellman_witness :
    (backward_induction (S := 1) (A := 1) (fun _ _ => (1 : ℚ))
        (fun _ _ _ => 1) 2 (1 / 2) none).1 0
      = (fun Q => bellman_operator Q (fun _ _ => 1) (fun _ _ _ => 1)
          (1 / 2))^[2] (fun _ _ => 0) :=
  backward_induction_matches_iterated_bellman 1 1 2 (fun _ _ => 1)
    (fun _ _ _ => 1) (1 / 2) 0

/-! ### C3: the value-iteration convergence loop -/

theorem viLoop_characterize (S A : ℕ) [NeZero S] [NeZero A]
    (R : Fin S → Fin A → ℚ) (P : Fin S → Fin A → Fin S → ℚ) (gamma eps : ℚ) :
    ∀ (fuel k : ℕ) (Q : Fin S → Fin A → ℚ),
      viLoop R P gamma eps fuel (viSeq R P gamma (k + 1))
          (some (viSeq R P gamma k)) = some Q →
      ∃ n, k + 1 ≤ n ∧ Q = viSeq R P gamma n
        ∧ supDist (viSeq R P gamma n) (viSeq R P gamma (n - 1)) ≤ eps
        ∧ ∀ m, k + 1 ≤ m → m < n →
            eps < supDist (viSeq R P gamma m) (viSeq R P gamma (m - 1)) := by
  intro fuel
  induction fuel with
  | zero =>
      intro k Q h
      by_cases hd : eps < supDist (viSeq R P gamma (k + 1)) (viSeq R P gamma k)
      · rw [show viLoop R P gamma eps 0 (viSeq R P gamma (k + 1))
              (some (viSeq R P gamma k)) = none from by
            simp only [viLoop]; rw [if_pos hd]] at h
        exact absurd h (by simp)
      · rw [show viLoop R P gamma eps 0 (viSeq R P gamma (k + 1))
              (some (viSeq R P gamma k)) = some (viSeq R P gamma (k + 1)) from by
            simp only [viLoop]; rw [if_neg hd]] at h
        refine ⟨k + 1, le_refl _, (Option.some_injective _ h).symm, ?_, ?_⟩
        · simpa using not_lt.mp hd
        · intro m hm1 hm2
          omega
  | succ fuel ih =>
      intro k Q h
      by_cases hd : eps < supDist (viSeq R P gamma (k + 1)) (viSeq R P gamma k)
      · rw [show viLoop R P gamma eps (fuel + 1) (viSeq R P gamma (k + 1))
              (some (viSeq R P gamma k))
            = viLoop R P gamma eps fuel (viSeq R P gamma (k + 2))
                (some (viSeq R P gamma (k + 1))) from by
            simp only [viLoop]; rw [if_pos hd]; rfl] at h
        obtain ⟨n, hn1, hn2, hn3, hn4⟩ := ih (k + 1) Q h
        refine ⟨n, by omega, hn2, hn3, ?_⟩
        intro m hm1 hm2
        rcases Nat.eq_or_lt_of_le hm1 with hm | hm
        · subst hm
          simpa using hd
        · exact hn4 m (by omega) hm2
      · rw [show viLoop R P gamma eps (fuel + 1) (viSeq R P gamma (k + 1))
              (some (viSeq R P gamma k)) = some (viSeq R P gamma (k + 1)) from by
            simp only [viLoop]; rw [if_neg hd]] at h
        refine ⟨k + 1, le_refl _, (Option.some_injective _ h).symm, ?_, ?_⟩
        · simpa using not_lt.mp hd
        · intro m hm1 hm2
          omega

/-- C3: `value_iteration` starts from the all-zeros `Q` with a previous
buffer that always fails the first convergence test, so when the loop
returns it has applied `bellman_operator` at least once (`n ≥ 1`), the
returned `Q` is the `n`-th iterate, and `n` is exactly the first index at
which the element-wise maximum absolute difference between consecutive
iterates is `≤ eps`. -/
theorem value_iteration_loop_characterization (S A : ℕ) [NeZero S] [NeZero A]
    (R : Fin S → Fin A → ℚ) (P : Fin S → Fin A → Fin S → ℚ)
    (gamma eps : ℚ) (fuel : ℕ) (Q : Fin S → Fin A → ℚ)
    (h : viLoop R P gamma eps fuel (fun _ _ => 0) none = some Q) :
    (viSeq R P gamma 0 = fun _ _ => 0)
    ∧ ∃ n, 1 ≤ n ∧ Q = viSeq R P gamma n
        ∧ supDist (viSeq R P gamma n) (viSeq R P gamma (n - 1)) ≤ eps
        ∧ ∀ m, 1 ≤ m → m < n →
            eps < supDist (viSeq R P gamma m) (viSeq R P gamma (m - 1)) := by
  refine ⟨rfl, ?_⟩
  cases fuel with
  | zero => exact absurd h (by simp [viLoop])
  | succ fuel =>
      have h' : viLoop R P gamma eps fuel (viSeq R P gamma 1)
          (some (viSeq R P gamma 0)) = some Q := h
      exact viLoop_characterize S A R P gamma eps fuel 0 Q h'

/-- Witness for C3 at a concrete input. -/
theorem value_iteration_loop_characterization_witness :
    (viSeq (S := 1) (A := 1) (fun _ _ => 0) (fun _ _ _ => 1) 0 0
        = fun _ _ => 0)
    ∧ ∃ n, 1 ≤ n
        ∧ (fun _ _ => (0 : ℚ))
            = viSeq (S := 1) (A := 1) (fun _ _ => 0) (fun _ _ _ => 1) 0 n
        ∧ supDist (viSeq (S := 1) (A := 1) (fun _ _ => 0) (fun _ _ _ => 1) 0 n)
            (viSeq (S := 1) (A := 1) (fun _ _ => 0) (fun _ _ _ => 1) 0 (n - 1))
            ≤ 1
        ∧ ∀ m, 1 ≤ m → m < n →
            (1 : ℚ) < supDist
              (viSeq (S := 1) (A := 1) (fun _ _ => 0) (fun _ _ _ => 1) 0 m)
              (viSeq (S := 1) (A := 1) (fun _ _ => 0) (fun _ _ _ => 1) 0
                (m - 1)) :=
  value_iteration_loop_characterization 1 1 (fun _ _ => 0) (fun _ _ _ => 1)
    0 1 1 (fun _ _ => 0)
    (by simp [viLoop, bellman_operator, supDist, dotV, rowMax,
      Finset.sup'_const])

/-! ### Sup-distance helper lemmas -/

theorem supDist_nonneg (S A : ℕ) [NeZero S] [NeZero A]
    (X Y : Fin S → Fin A → ℚ) : 0 ≤ supDist X Y := by
  obtain ⟨p, hp⟩ :=
    (Finset.univ_nonempty : (Finset.univ : Finset (Fin S × Fin A)).Nonempty)
  exact le_trans (abs_nonneg _)
    (Finset.le_sup' (fun q : Fin S × Fin A => |X q.1 q.2 - Y q.1 q.2|) hp)

theorem abs_sub_le_supDist (S A : ℕ) [NeZero S] [NeZero A]
    (X Y : Fin S → Fin A → ℚ) (ss : Fin S) (aa : Fin A) :
    |X ss aa - Y ss aa| ≤ supDist X Y :=
  Finset.le_sup' (fun p : Fin S × Fin A => |X p.1 p.2 - Y p.1 p.2|)
    (Finset.mem_univ (ss, aa))

theorem rowMax_abs_sub_le (S A : ℕ) [NeZero S] [NeZero A]
    (Q1 Q2 : Fin S → Fin A → ℚ) (ss : Fin S) :
    |rowMax Q1 ss - rowMax Q2 ss| ≤ supDist Q1 Q2 := by
  rw [abs_sub_le_iff]
  constructor
  · rw [sub_le_iff_le_add]
    apply Finset.sup'_le
    intro aa _
    have h1 : Q1 ss aa - Q2 ss aa ≤ supDist Q1 Q2 :=
      le_trans (le_abs_self _) (abs_sub_le_supDist S A Q1 Q2 ss aa)
    have h2 : Q2 ss aa ≤ rowMax Q2 ss :=
      Finset.le_sup' (Q2 ss) (Finset.mem_univ aa)
    linarith
  · rw [sub_le_iff_le_add]
    apply Finset.sup'_le
    intro aa _
    have h1 : Q2 ss aa - Q1 ss aa ≤ supDist Q1 Q2 := by
      have h' : |Q2 ss aa - Q1 ss aa| ≤ supDist Q1 Q2 := by
        rw [abs_sub_comm]
        exact abs_sub_le_supDist S A Q1 Q2 ss aa
      exact le_trans (le_abs_self _) h'
    have h2 : Q1 ss aa ≤ rowMax Q1 ss :=
      Finset.le_sup' (Q1 ss) (Finset.mem_univ aa)
    linarith

/-! ### C6: the Bellman operator is a gamma-contraction -/

theorem bellman_contraction_aux (S A : ℕ) [NeZero S] [NeZero A]
    (R : Fin S → Fin A → ℚ) (P : Fin S → Fin A → Fin S → ℚ) (gamma : ℚ)
    (hg0 : 0 ≤ gamma)
    (hP0 : ∀ ss aa ns, 0 ≤ P ss aa ns)
    (hPsum : ∀ ss aa, ∑ ns, P ss aa ns = 1)
    (Q1 Q2 : Fin S → Fin A → ℚ) :
    supDist (bellman_operator Q1 R P gamma) (bellman_operator Q2 R P gamma)
      ≤ gamma * supDist Q1 Q2 := by
  apply Finset.sup'_le
  rintro ⟨ss, aa⟩ -
  have hsum : ∑ ns, P ss aa ns * rowMax Q1 ns
        - ∑ ns, P ss aa ns * rowMax Q2 ns
      = ∑ ns, P ss aa ns * (rowMax Q1 ns - rowMax Q2 ns) := by
    rw [← Finset.sum_sub_distrib]
    exact Finset.sum_congr rfl fun ns _ => by ring
  have hdiff : bellman_operator Q1 R P gamma ss aa
        - bellman_operator Q2 R P gamma ss aa
      = gamma * ∑ ns, P ss aa ns * (rowMax Q1 ns - rowMax Q2 ns) := by
    simp only [bellman_operator, dotV]
    rw [← hsum]
    ring
  have habs : |∑ ns, P ss aa ns * (rowMax Q1 ns - rowMax Q2 ns)|
      ≤ supDist Q1 Q2 :=
    calc |∑ ns, P ss aa ns * (rowMax Q1 ns - rowMax Q2 ns)|
        ≤ ∑ ns, |P ss aa ns * (rowMax Q1 ns - rowMax Q2 ns)| :=
          Finset.abs_sum_le_sum_abs _ _
      _ = ∑ ns, P ss aa ns * |rowMax Q1 ns - rowMax Q2 ns| :=
          Finset.sum_congr rfl fun ns _ => by
            rw [abs_mul, abs_of_nonneg (hP0 ss aa ns)]
      _ ≤ ∑ ns, P ss aa ns * supDist Q1 Q2 :=
          Finset.sum_le_sum fun ns _ =>
            mul_le_mul_of_nonneg_left (rowMax_abs_sub_le S A Q1 Q2 ns)
              (hP0 ss aa ns)
      _ = (∑ ns, P ss aa ns) * supDist Q1 Q2 := by rw [Finset.sum_mul]
      _ = supDist Q1 Q2 := by rw [hPsum, one_mul]
  calc |bellman_operator Q1 R P gamma ss aa
        - bellman_operator Q2 R P gamma ss aa|
      = gamma * |∑ ns, P ss aa ns * (rowMax Q1 ns - rowMax Q2 ns)| := by
        rw [hdiff, abs_mul, abs_of_nonneg hg0]
    _ ≤ gamma * supDist Q1 Q2 := mul_le_mul_of_nonneg_left habs hg0

/-- C6: for `0 ≤ gamma < 1` and row-stochastic `P` (entries in `[0, 1]`,
rows summing to `1`), `bellman_operator` is a `gamma`-contraction in the
sup norm: the element-wise maximum absolute difference of the images is at
most `gamma` times that of the arguments. -/
theorem bellman_operator_contraction (S A : ℕ) [NeZero S] [NeZero A]
    (R : Fin S → Fin A → ℚ) (P : Fin S → Fin A → Fin S → ℚ) (gamma : ℚ)
    (hg0 : 0 ≤ gamma) (_hg1 : gamma < 1)
    (hP0 : ∀ ss aa ns, 0 ≤ P ss aa ns)
    (_hP1 : ∀ ss aa ns, P ss aa ns ≤ 1)
    (hPsum : ∀ ss aa, ∑ ns, P ss aa ns = 1)
    (Q1 Q2 : Fin S → Fin A → ℚ) :
    supDist (bellman_operator Q1 R P gamma) (bellman_operator Q2 R P gamma)
      ≤ gamma * supDist Q1 Q2 :=
  bellman_contraction_aux S A R P gamma hg0 hP0 hPsum Q1 Q2

/-- Witness for C6 at a concrete input. -/
theorem bellman_operator_contraction_witness :
    (0 : ℚ) ≤ 1 / 2 ∧ (1 / 2 : ℚ) < 1
    ∧ supDist (S := 1) (A := 1)
        (bellman_operator (fun _ _ => 0) (fun _ _ => 0) (fun _ _ _ => 1)
          (1 / 2))
        (bellman_operator (fun _ _ => 1) (fun _ _ => 0) (fun _ _ _ => 1)
          (1 / 2))
      ≤ 1 / 2 * supDist (S := 1) (A := 1) (fun _ _ => 0) (fun _ _ => 1) :=
  ⟨by norm_num, by norm_num,
   bellman_operator_contraction 1 1 (fun _ _ => 0) (fun _ _ _ => 1) (1 / 2)
     (by norm_num) (by norm_num) (fun _ _ _ => by norm_num)
     (fun _ _ _ => by norm_num) (fun _ _ => by simp)
     (fun _ _ => 0) (fun _ _ => 1)⟩

/-! ### C7: termination of the value-iteration loop for gamma < 1 -/

theorem viSeq_step_bound (S A : ℕ) [NeZero S] [NeZero A]
    (R : Fin S → Fin A → ℚ) (P : Fin S → Fin A → Fin S → ℚ) (gamma : ℚ)
    (hg0 : 0 ≤ gamma)
    (hP0 : ∀ ss aa ns, 0 ≤ P ss aa ns)
    (hPsum : ∀ ss aa, ∑ ns, P ss aa ns = 1) (n : ℕ) :
    supDist (viSeq R P gamma (n + 1)) (viSeq R P gamma n)
      ≤ gamma ^ n * supDist (viSeq R P gamma 1) (viSeq R P gamma 0) := by
  induction n with
  | zero => simp
  | succ n ih =>
      have hcontr := bellman_contraction_aux S A R P gamma hg0 hP0 hPsum
        (viSeq R P gamma (n + 1)) (viSeq R P gamma n)
      calc supDist (viSeq R P gamma (n + 2)) (viSeq R P gamma (n + 1))
          ≤ gamma * supDist (viSeq R P gamma (n + 1)) (viSeq R P gamma n) :=
            hcontr
        _ ≤ gamma * (gamma ^ n *
              supDist (viSeq R P gamma 1) (viSeq R P gamma 0)) :=
            mul_le_mul_of_nonneg_left ih hg0
        _ = gamma ^ (n + 1) *
              supDist (viSeq R P gamma 1) (viSeq R P gamma 0) := by ring

theorem viLoop_reaches (S A : ℕ) [NeZero S] [NeZero A]
    (R : Fin S → Fin A → ℚ) (P : Fin S → Fin A → Fin S → ℚ)
    (gamma eps : ℚ) :
    ∀ (k fuel n : ℕ), k ≤ fuel →
      supDist (viSeq R P gamma (n + k + 1)) (viSeq R P gamma (n + k)) ≤ eps →
      (viLoop R P gamma eps fuel (viSeq R P gamma (n + 1))
          (some (viSeq R P gamma n))).isSome := by
  intro k
  induction k with
  | zero =>
      intro fuel n _ hstop
      simp only [Nat.add_zero] at hstop
      cases fuel with
      | zero =>
          simp only [viLoop]
          rw [if_neg (not_lt.mpr hstop)]
          simp
      | succ fuel =>
          simp only [viLoop]
          rw [if_neg (not_lt.mpr hstop)]
          simp
  | succ k ih =>
      intro fuel n hk hstop
      cases fuel with
      | zero => omega
      | succ fuel =>
          by_cases hd : eps < supDist (viSeq R P gamma (n + 1))
              (viSeq R P gamma n)
          · simp only [viLoop]
            rw [if_pos hd]
            have hstop' : supDist (viSeq R P gamma ((n + 1) + k + 1))
                (viSeq R P gamma ((n + 1) + k)) ≤ eps := by
              have h1 : (n + 1) + k + 1 = n + (k + 1) + 1 := by omega
              have h2 : (n + 1) + k = n + (k + 1) := by omega
              rw [h1, h2]
              exact hstop
            exact ih fuel (n + 1) (by omega) hstop'
          · simp only [viLoop]
            rw [if_neg hd]
            simp

/-- C7: for every `R`, row-stochastic `P`, `0 ≤ gamma < 1` and `eps > 0`,
the convergence loop of `value_iteration` terminates after finitely many
iterations: some finite fuel makes the fuel-indexed loop return a value.
The guarantee comes only from the contraction property; the loop itself has
no iteration cap. -/
theorem value_iteration_terminates (S A : ℕ) [NeZero S] [NeZero A]
    (R : Fin S → Fin A → ℚ) (P : Fin S → Fin A → Fin S → ℚ)
    (gamma eps : ℚ)
    (hg0 : 0 ≤ gamma) (hg1 : gamma < 1) (heps : 0 < eps)
    (hP0 : ∀ ss aa ns, 0 ≤ P ss aa ns)
    (hPsum : ∀ ss aa, ∑ ns, P ss aa ns = 1) :
    ∃ fuel, (viLoop R P gamma eps fuel (fun _ _ => 0) none).isSome := by
  have hC0 : 0 ≤ supDist (viSeq R P gamma 1) (viSeq R P gamma 0) :=
    supDist_nonneg S A _ _
  obtain ⟨n, hn⟩ : ∃ n, gamma ^ n *
      supDist (viSeq R P gamma 1) (viSeq R P gamma 0) ≤ eps := by
    rcases eq_or_lt_of_le hC0 with h0 | hpos
    · exact ⟨0, by rw [pow_zero, one_mul, ← h0]; exact le_of_lt heps⟩
    · obtain ⟨m, hm⟩ := exists_pow_lt_of_lt_one (div_pos heps hpos) hg1
      exact ⟨m, le_of_lt ((lt_div_iff₀ hpos).mp hm)⟩
  have hstop : supDist (viSeq R P gamma (0 + n + 1))
      (viSeq R P gamma (0 + n)) ≤ eps := by
    have hb := viSeq_step_bound S A R P gamma hg0 hP0 hPsum n
    have h1 : 0 + n + 1 = n + 1 := by omega
    have h2 : 0 + n = n := by omega
    rw [h1, h2]
    exact le_trans hb hn
  refine ⟨n + 1, ?_⟩
  exact viLoop_reaches S A R P gamma eps n n 0 (le_refl n) hstop

/-- Witness for C7 at a concrete input. -/
theorem value_iteration_terminates_witness :
    (0 : ℚ) ≤ 1 / 2 ∧ (1 / 2 : ℚ) < 1 ∧ (0 : ℚ) < 1
    ∧ ∃ fuel, (viLoop (S := 1) (A := 1) (fun _ _ => 0) (fun _ _ _ => 1)
        (1 / 2) 1 fuel (fun _ _ => 0) none).isSome :=
  ⟨by norm_num, by norm_num, by norm_num,
   value_iteration_terminates 1 1 (fun _ _ => 0) (fun _ _ _ => 1) (1 / 2) 1
     (by norm_num) (by norm_num) (by norm_num)
     (fun _ _ _ => by norm_num) (fun _ _ => by simp)⟩

/-! ### C8: the returned V is the per-row maximum of the returned Q -/

/-- C8: whenever `value_iteration` returns a pair `(Q, V)`, every entry
`V[s]` equals `max_a Q[s, a]` exactly, computed by the explicit per-row
reduction. -/
theorem value_iteration_V_is_rowmax (S A : ℕ) [NeZero S] [NeZero A]
    (R : Fin S → Fin A → ℚ) (P : Fin S → Fin A → Fin S → ℚ)
    (gamma eps : ℚ) (fuel : ℕ) (Q : Fin S → Fin A → ℚ) (V : Fin S → ℚ)
    (h : value_iteration R P gamma eps fuel = some (Q, V)) (ss : Fin S) :
    V ss = Finset.univ.sup' Finset.univ_nonempty (Q ss) := by
  unfold value_iteration at h
  cases hv : viLoop R P gamma eps fuel (fun _ _ => 0) none with
  | none => rw [hv] at h; exact absurd h (by simp)
  | some Q' =>
      rw [hv] at h
      simp only [Option.map_some', Option.some.injEq, Prod.mk.injEq] at h
      obtain ⟨hQ, hV⟩ := h
      subst hQ
      rw [← hV]
      rfl

/-- Witness for C8 at a concrete input. -/
theorem value_iteration_V_is_rowmax_witness :
    (fun _ => (0 : ℚ)) (0 : Fin 1)
      = Finset.univ.sup' Finset.univ_nonempty
          (fun _aa : Fin 1 => (0 : ℚ)) :=
  value_iteration_V_is_rowmax 1 1 (fun _ _ => 0) (fun _ _ _ => 1) 0 1 1
    (fun _ _ => 0) (fun _ => 0)
    (by simp [value_iteration, viLoop, bellman_operator, supDist, dotV,
      rowMax, Finset.sup'_const])
    0

/-! ### C9: there is no parameter validation in the solvers -/

theorem viLoop_none_of_eps_neg (S A : ℕ) [NeZero S] [NeZero A]
    (R : Fin S → Fin A → ℚ) (P : Fin S → Fin A → Fin S → ℚ)
    (gamma eps : ℚ) (heps : eps < 0) :
    ∀ (fuel : ℕ) (Q : Fin S → Fin A → ℚ)
      (Qaux : Option (Fin S → Fin A → ℚ)),
      viLoop R P gamma eps fuel Q Qaux = none := by
  intro fuel
  induction fuel with
  | zero =>
      intro Q Qaux
      cases Qaux with
      | none => rfl
      | some Qa =>
          simp only [viLoop]
          rw [if_pos (lt_of_lt_of_le heps (supDist_nonneg S A Q Qa))]
  | succ fuel ih =>
      intro Q Qaux
      cases Qaux with
      | none => exact ih _ _
      | some Qa =>
          simp only [viLoop]
          rw [if_pos (lt_of_lt_of_le heps (supDist_nonneg S A Q Qa))]
          exact ih _ _

/-- C9 counterexample: with `gamma = 2` (outside `[0, 1]`),
`backward_induction` does not fail fast: it runs its computation loop and
returns ordinary values (`Q[0, 0, 0] = 1 + 2 · 1 = 3` here), refuting the
claim that invalid parameters are rejected with an error. -/
theorem no_parameter_validation_counterexample :
    (backward_induction (S := 1) (A := 1) (fun _ _ => (1 : ℚ))
        (fun _ _ _ => 1) 2 2 none).1 ⟨0, by omega⟩ 0 0 = 3 := by
  norm_num [backward_induction, biQ, vclip, rowMax, dotV, Finset.sup'_const,
    Fin.sum_univ_one]

/-- C9 amended: the routines perform no parameter validation.
`backward_induction` accepts any `gamma` (and any `vmax`) and computes
normally — in particular the terminal layer still equals `R` for every
`gamma`, valid or not — and `value_iteration` with `epsilon < 0` never
passes its exit test, so its loop runs forever (the fuel-indexed model
returns `none` for every fuel) instead of raising an error. -/
theorem no_parameter_validation :
    (∀ (S A H : ℕ) [NeZero A] (R : Fin S → Fin A → ℚ)
        (P : Fin S → Fin A → Fin S → ℚ) (gamma : ℚ) (vmax : Option ℚ)
        (hH : 1 ≤ H) (ss : Fin S) (aa : Fin A),
        (backward_induction R P H gamma vmax).1 ⟨H - 1, by omega⟩ ss aa
          = R ss aa)
    ∧ ∀ (S A : ℕ) [NeZero S] [NeZero A] (R : Fin S → Fin A → ℚ)
        (P : Fin S → Fin A → Fin S → ℚ) (gamma eps : ℚ), eps < 0 →
        ∀ (fuel : ℕ) (Q : Fin S → Fin A → ℚ),
          viLoop R P gamma eps fuel Q none = none := by
  constructor
  · intro S A H _ R P gamma vmax hH ss aa
    show biQ R P gamma vmax (H - 1 - (H - 1)) ss aa = R ss aa
    rw [Nat.sub_self]
    rfl
  · intro S A _ _ R P gamma eps heps fuel Q
    exact viLoop_none_of_eps_neg S A R P gamma eps heps fuel Q none

/-- Witness for the amended C9 at a concrete input. -/
theorem no_parameter_validation_witness :
    ((backward_induction (S := 1) (A := 1) (fun _ _ => (1 : ℚ))
        (fun _ _ _ => 1) 2 2 none).1 ⟨2 - 1, by omega⟩ 0 0 = 1)
    ∧ viLoop (S := 1) (A := 1) (fun _ _ => (0 : ℚ)) (fun _ _ _ => 1)
        (1 / 2) (-1) 3 (fun _ _ => 0) none = none :=
  ⟨no_parameter_validation.1 1 1 2 (fun _ _ => 1) (fun _ _ _ => 1) 2 none
     (by omega) 0 0,
   no_parameter_validation.2 1 1 (fun _ _ => 0) (fun _ _ _ => 1) (1 / 2)
     (-1) (by norm_num) 3 (fun _ _ => 0)⟩

end DynProg
